import Mathlib

/-!
Verification of the `pile` package of mergestat/haystack (src/pkg/pile/pile.go)
against its natural-language specification.

The persisted SQLite state is embedded shallowly: the `repos` table is a list
of `RepoRow` (in rowid/insertion order) and the `repo_contents` table a list of
`ContentRow`.  The external git collaborators (clone, gitlog, lsfiles, per-file
reads) are modelled by a `GitOutcome` value describing what they return during
one `AddRepo` call, cancellation of the Go context by an optional iteration
index, and possible failures of the two database statements whose error values
the Go code discards by a `DbFaults` record.

A central point of the embedding: in `AddRepo` the Go code declares
`var txErr error`, obtains `end := sqlitex.Transaction(conn)` and defers
`end(&txErr)`, but never assigns `txErr` (all failure paths `return err`
directly).  `sqlitex.Transaction`'s end function commits when the pointed-to
error is nil and rolls back otherwise, so every exit of `AddRepo` COMMITS
whatever statements already executed.  The embedding therefore persists all
writes performed before an error return.
-/

namespace Haystack

/-- One row of the `repos` table: `id INTEGER PRIMARY KEY, url TEXT UNIQUE,
last_indexed_commit_hash TEXT`. -/
structure RepoRow where
  id : Nat
  url : String
  hash : String
deriving DecidableEq

/-- One row of the `repo_contents` table: `repo_id INTEGER, path TEXT,
content TEXT`.  `repo_id` is filled by the scalar subquery
`(SELECT id FROM repos WHERE url = ?)`, which yields NULL (`none`) when no
`repos` row matches. -/
structure ContentRow where
  repoId : Option Nat
  path : String
  content : String
deriving DecidableEq

/-- The persisted store state: both tables, rows in insertion (rowid) order. -/
structure Store where
  repos : List RepoRow
  contents : List ContentRow
deriving DecidableEq

/-- The store right after `Open` on a fresh database: both tables empty. -/
def emptyStore : Store := ⟨[], []⟩

/-- One event produced by the `lsfiles` iterator inside the file loop:
either a path whose `os.ReadFile` yields contents or an error, or a non-EOF
iterator failure.  The end of the list is `io.EOF`. -/
inductive FileEvent where
  | file (path : String) (read : Except String String)
  | iterFail (e : String)

/-- Combined outcome of the external collaborators for one `AddRepo` call:
`cloneFail` covers `os.MkdirTemp`/`clone.Exec` failure, `logFail` covers
`gitlog.Exec`/`commitIter.Next` failure, and `ok head ls` gives the observed
head commit SHA plus the result of `lsfiles.Exec` (which itself may fail). -/
inductive GitOutcome where
  | cloneFail (e : String)
  | logFail (e : String)
  | ok (head : String) (ls : Except String (List FileEvent))

/-- Injected failures of database statements during `AddRepo`.
`selErr`: the change-detection `SELECT url, last_indexed_commit_hash` at
pile.go:156 (its error value is DISCARDED by the Go code; on failure the
`ResultFunc` never ran, so `lastIndexedCommitHash` stays `""`).
`insErr`: the `INSERT INTO repos ... ON CONFLICT (url) DO NOTHING` at
pile.go:171 (error also DISCARDED; on failure no row is inserted).
`contentErr`: per-path failure of the `INSERT INTO repo_contents` at
pile.go:205, whose error IS checked and returned. -/
structure DbFaults where
  selErr : Option String
  insErr : Option String
  contentErr : String → Option String

/-- The fault-free environment: every statement succeeds. -/
def noFaults : DbFaults := ⟨none, none, fun _ => none⟩

/-- First `repos` row whose `url` matches, in scan (insertion) order — the
`SELECT ... WHERE url = ? LIMIT 1` and the `ON CONFLICT (url)` check. -/
def findRepoL (l : List RepoRow) (u : String) : Option RepoRow :=
  l.find? (fun r => r.url == u)

/-- The lookup `findRepoL` applied to the whole store. -/
def findRepo (s : Store) (u : String) : Option RepoRow :=
  findRepoL s.repos u

/-- The value of the Go variable `lastIndexedCommitHash` after the
change-detection SELECT: the matched row's hash, or `""` when no row
matched (the variable keeps its zero value). -/
def storedHash (s : Store) (u : String) : String :=
  match findRepo s u with
  | some r => r.hash
  | none => ""

/-- The rowid SQLite assigns to a fresh `repos` row: one more than the
largest existing id. -/
def nextId (s : Store) : Nat :=
  (s.repos.map RepoRow.id).foldr max 0 + 1

/-- The statement `INSERT INTO repos (url, last_indexed_commit_hash) VALUES (?, ?)
ON CONFLICT (url) DO NOTHING` — appends a row unless a row with this url
already exists, in which case it does nothing (and in particular never
updates the existing row's hash). -/
def insertRepo (s : Store) (u h : String) : Store :=
  match findRepo s u with
  | some _ => s
  | none => { s with repos := s.repos ++ [⟨nextId s, u, h⟩] }

/-- The scalar subquery `SELECT id FROM repos WHERE url = ?`: the first
matching row's id, or NULL. -/
def urlId (s : Store) (u : String) : Option Nat :=
  (findRepo s u).map RepoRow.id

/-- The statement `INSERT INTO repo_contents (repo_id, path, content) VALUES
((SELECT id FROM repos WHERE url = ?), ?, ?)`. -/
def insertContent (s : Store) (u p c : String) : Store :=
  { s with contents := s.contents ++ [⟨urlId s u, p, c⟩] }

/-- Whether the Go context is done at loop iteration `i` (0-based): the
`select` at the top of the file loop takes the `<-ctx.Done()` branch from
iteration `cancelAt` on. -/
def cancelled (cancelAt : Option Nat) (i : Nat) : Bool :=
  match cancelAt with
  | none => false
  | some k => k ≤ i

/-- The file-iteration loop of `AddRepo` (pile.go:182-212).  Each iteration
first checks the context, then takes the next iterator event: `io.EOF` (end
of list) breaks out returning nil, a non-EOF iterator error returns it, a
file is read (read error returned) and inserted into `repo_contents`
(statement error returned).  Because the deferred transaction end always
commits (see the file header), the state reached so far is kept on every
return. -/
def addFilesLoop (url : String) (f : DbFaults) (cancelAt : Option Nat) :
    Store → List FileEvent → Nat → Except String Unit × Store
  | s, [], i =>
    if cancelled cancelAt i then (Except.error "context canceled", s)
    else (Except.ok (), s)
  | s, ev :: rest, i =>
    if cancelled cancelAt i then (Except.error "context canceled", s)
    else
      match ev with
      | FileEvent.iterFail e => (Except.error e, s)
      | FileEvent.file p r =>
        match r with
        | Except.error e => (Except.error e, s)
        | Except.ok content =>
          match f.contentErr p with
          | some e => (Except.error e, s)
          | none => addFilesLoop url f cancelAt (insertContent s url p content) rest (i + 1)

/-- The operation `Pile.AddRepo` (pile.go:113-215).  Clone and commit inspection happen
before any database access; their failure returns the error with the store
untouched.  Then, inside the (always committing, see header) transaction:
the change-detection SELECT (error discarded, pile.go:156), the early no-op
return on equal hashes, the conflict-ignoring repos INSERT (error discarded,
pile.go:171), `lsfiles.Exec`, and the file loop. -/
def addRepo (s : Store) (url : String) (g : GitOutcome) (f : DbFaults)
    (cancelAt : Option Nat) : Except String Unit × Store :=
  match g with
  | GitOutcome.cloneFail e => (Except.error e, s)
  | GitOutcome.logFail e => (Except.error e, s)
  | GitOutcome.ok head ls =>
    let lastIndexed : String :=
      match f.selErr with
      | some _ => ""
      | none => storedHash s url
    if lastIndexed = head then (Except.ok (), s)
    else
      let s1 : Store :=
        match f.insErr with
        | some _ => s
        | none => insertRepo s url head
      match ls with
      | Except.error e => (Except.error e, s1)
      | Except.ok evs => addFilesLoop url f cancelAt s1 evs 0

/-- The operation `Pile.ListRepos` (pile.go:217-236): `SELECT url FROM repos`, one string
per row in scan order. -/
def listRepos (s : Store) : List String :=
  s.repos.map RepoRow.url

/-- SQLite `lower()` — ASCII-only lowercasing, applied bytewise. -/
def asciiLower (c : Char) : Char :=
  if 'A' ≤ c ∧ c ≤ 'Z' then Char.ofNat (c.toNat + 32) else c

/-- The character sequence of the lowercased string. -/
def lowerStr (s : String) : List Char :=
  s.data.map asciiLower

/-- The comparison `memcmp(zHaystack, zNeedle, nNeedle) == 0`: the needle matches at the
start of the haystack. -/
def matchesAt : List Char → List Char → Bool
  | [], _ => true
  | _ :: _, [] => false
  | c :: nd, h :: hs => c == h && matchesAt nd hs

/-- The search loop of SQLite's `instrFunc` for a non-empty needle: starting
at 1-based position `n`, advance the haystack until the needle matches or
becomes longer than the remaining haystack (result 0). -/
def instrAux : List Char → List Char → Nat → Nat
  | [], nd, n => if nd.length = 0 then n else 0
  | h :: t, nd, n =>
    if nd.length ≤ t.length + 1 then
      if matchesAt nd (h :: t) then n else instrAux t nd (n + 1)
    else 0

/-- SQLite `instr(hay, nd)`: 1-based position of the first occurrence of
`nd` in `hay`, 0 when absent.  For the empty needle the search loop is
skipped and the initial value `N = 1` is returned. -/
def sqliteInstr (hay nd : List Char) : Nat :=
  if nd.isEmpty then 1 else instrAux hay nd 1

/-- The operation `Pile.SearchAllRepoContents` (pile.go:238-260):
`SELECT path, repo_id FROM repo_contents WHERE instr(lower(content),
lower(?)) > 0`, collecting `path` per matching row in scan order. -/
def searchAll (s : Store) (q : String) : List String :=
  (s.contents.filter (fun r => 0 < sqliteInstr (lowerStr r.content) (lowerStr q))).map
    ContentRow.path

/-- The needle occurs in the haystack as a contiguous substring — the
spec's "substring occurrence" (spec §4.5), used to compare the SQL
predicate against the specified search semantics. -/
def occursIn (nd hay : List Char) : Prop :=
  ∃ pre post, hay = pre ++ nd ++ post

/-- How many `repos` rows have url equal to `u` — used to state uniqueness. -/
def reposFor (l : List RepoRow) (u : String) : Nat :=
  l.countP (fun r => r.url == u)

/-- All iterator events are successfully read files (a clean working
tree enumeration). -/
def cleanEvents : List FileEvent → Bool
  | [] => true
  | FileEvent.file _ (Except.ok _) :: rest => cleanEvents rest
  | _ => false

/-- Description of one `AddRepo` call in a call sequence: the url, the
external outcome, the injected statement faults and the cancellation
point. -/
structure CallSpec where
  url : String
  g : GitOutcome
  f : DbFaults
  cancelAt : Option Nat

/-- The store left behind by a sequence of `AddRepo` calls (each call's
returned error is the caller's business; the persisted state threads
through). -/
def runCalls : Store → List CallSpec → Store
  | s, [] => s
  | s, c :: rest => runCalls (addRepo s c.url c.g c.f c.cancelAt).2 rest

end Haystack

namespace Haystack

/-- C9: on an empty store (no repository ever ingested), `ListRepos` succeeds
and returns the empty sequence of URLs. -/
theorem listRepos_empty_store : listRepos emptyStore = [] := rfl

/-- C5: when the external clone step or the commit-inspection step fails,
`AddRepo` returns that error and the persisted store is exactly unchanged —
no `repos` row and no `repo_contents` row is written, since no database
statement runs before those steps succeed. -/
theorem addRepo_clone_or_log_failure_no_write :
    ∀ (s : Store) (url e : String) (f : DbFaults) (c : Option Nat),
    addRepo s url (GitOutcome.cloneFail e) f c = (Except.error e, s) ∧
    addRepo s url (GitOutcome.logFail e) f c = (Except.error e, s) := by
  intro s url e f c
  exact ⟨rfl, rfl⟩

/-- C1 (code bug witnessed at a failing input): ingesting a two-file
repository into an empty store with cancellation signalled after one file
makes `AddRepo` return the cancellation error, yet the persisted state is
NOT what it was before the call: the new `repos` row and the first file's
`repo_contents` row are committed and visible, because the Go code never
assigns `txErr`, so the deferred transaction end always commits. -/
theorem addRepo_cancel_commits_inserted_rows :
    (addRepo emptyStore "u" (GitOutcome.ok "h" (Except.ok
        [FileEvent.file "a.txt" (Except.ok "foo"), FileEvent.file "b.txt" (Except.ok "bar")]))
      noFaults (some 1)).1 = Except.error "context canceled" ∧
    (addRepo emptyStore "u" (GitOutcome.ok "h" (Except.ok
        [FileEvent.file "a.txt" (Except.ok "foo"), FileEvent.file "b.txt" (Except.ok "bar")]))
      noFaults (some 1)).2 = ⟨[⟨1, "u", "h"⟩], [⟨some 1, "a.txt", "foo"⟩]⟩ ∧
    (⟨[⟨1, "u", "h"⟩], [⟨some 1, "a.txt", "foo"⟩]⟩ : Store) ≠ emptyStore :=
  ⟨rfl, rfl, by decide⟩

/-- C2 counterexample: ingest url `u` at head `h1` (empty tree), then again
at head `h2` with one file.  The second call succeeds and writes a new
`repo_contents` row, but the `repos` row's `last_indexed_commit_hash` is
still `h1`, not the freshly observed `h2` whose file was just inserted —
`ON CONFLICT (url) DO NOTHING` never updates the pre-existing row. -/
theorem addRepo_keeps_stale_hash_cex :
    (addRepo (addRepo emptyStore "u" (GitOutcome.ok "h1" (Except.ok [])) noFaults none).2
      "u" (GitOutcome.ok "h2" (Except.ok [FileEvent.file "a.txt" (Except.ok "x")]))
      noFaults none).1 = Except.ok () ∧
    (addRepo (addRepo emptyStore "u" (GitOutcome.ok "h1" (Except.ok [])) noFaults none).2
      "u" (GitOutcome.ok "h2" (Except.ok [FileEvent.file "a.txt" (Except.ok "x")]))
      noFaults none).2.contents = [⟨some 1, "a.txt", "x"⟩] ∧
    storedHash (addRepo (addRepo emptyStore "u" (GitOutcome.ok "h1" (Except.ok [])) noFaults none).2
      "u" (GitOutcome.ok "h2" (Except.ok [FileEvent.file "a.txt" (Except.ok "x")]))
      noFaults none).2 "u" = "h1" ∧
    ("h1" : String) ≠ "h2" :=
  ⟨rfl, rfl, rfl, by decide⟩

/-- C3 counterexample: with the change-detection SELECT and the `repos`
INSERT both failing, `AddRepo` still returns success — both statement errors
are silently discarded by the Go code (their return values are dropped at
pile.go:156 and pile.go:171) — and the call carries on, leaving an orphan
`repo_contents` row whose `repo_id` is NULL. -/
theorem addRepo_swallows_db_errors_cex :
    addRepo emptyStore "u" (GitOutcome.ok "h" (Except.ok
        [FileEvent.file "a.txt" (Except.ok "x")]))
      ⟨some "sel boom", some "ins boom", fun _ => none⟩ none
      = (Except.ok (), ⟨[], [⟨none, "a.txt", "x"⟩]⟩) :=
  rfl

/-- C4 counterexample: ingest `u` at `h1`, then twice in succession at the
same head `h2`.  Both of the successive calls succeed and observe the same
head, yet the second one is NOT a no-op: because the stored hash is still
the stale `h1`, it inserts the file set again (contents grow from one row
to two duplicate rows). -/
theorem addRepo_twice_not_noop_cex :
    (addRepo (addRepo (addRepo emptyStore "u" (GitOutcome.ok "h1" (Except.ok [])) noFaults none).2
      "u" (GitOutcome.ok "h2" (Except.ok [FileEvent.file "a.txt" (Except.ok "x")])) noFaults none).2
      "u" (GitOutcome.ok "h2" (Except.ok [FileEvent.file "a.txt" (Except.ok "x")])) noFaults none).1
      = Except.ok () ∧
    (addRepo (addRepo emptyStore "u" (GitOutcome.ok "h1" (Except.ok [])) noFaults none).2
      "u" (GitOutcome.ok "h2" (Except.ok [FileEvent.file "a.txt" (Except.ok "x")])) noFaults none).2.contents
      = [⟨some 1, "a.txt", "x"⟩] ∧
    (addRepo (addRepo (addRepo emptyStore "u" (GitOutcome.ok "h1" (Except.ok [])) noFaults none).2
      "u" (GitOutcome.ok "h2" (Except.ok [FileEvent.file "a.txt" (Except.ok "x")])) noFaults none).2
      "u" (GitOutcome.ok "h2" (Except.ok [FileEvent.file "a.txt" (Except.ok "x")])) noFaults none).2.contents
      = [⟨some 1, "a.txt", "x"⟩, ⟨some 1, "a.txt", "x"⟩] :=
  ⟨rfl, rfl, rfl⟩

end Haystack

namespace Haystack

/-- The predicate `matchesAt nd hay` holds exactly when `nd` is an initial segment of
`hay`. -/
theorem matchesAt_iff : ∀ nd hay : List Char,
    matchesAt nd hay = true ↔ ∃ post, hay = nd ++ post := by
  intro nd
  induction nd with
  | nil =>
    intro hay
    simp [matchesAt]
  | cons c nd ih =>
    intro hay
    cases hay with
    | nil =>
      simp [matchesAt]
    | cons h hs =>
      rw [matchesAt]
      rw [Bool.and_eq_true, beq_iff_eq, ih hs]
      constructor
      · rintro ⟨rfl, post, rfl⟩
        exact ⟨post, rfl⟩
      · rintro ⟨post, hp⟩
        injection hp with h1 h2
        exact ⟨h1.symm, post, h2⟩

/-- The empty haystack contains only the empty needle. -/
theorem occursIn_nil_iff (nd : List Char) : occursIn nd [] ↔ nd = [] := by
  constructor
  · rintro ⟨pre, post, h⟩
    have hl := congrArg List.length h
    simp [List.length_append] at hl
    exact List.length_eq_zero.mp (by omega)
  · rintro rfl
    exact ⟨[], [], rfl⟩

/-- An occurring needle is no longer than the haystack. -/
theorem occursIn_length_le {nd hay : List Char} (h : occursIn nd hay) :
    nd.length ≤ hay.length := by
  obtain ⟨pre, post, rfl⟩ := h
  simp [List.length_append]
  omega

/-- Splitting an occurrence in a cons haystack: either the needle matches at
the head, or it occurs in the tail. -/
theorem occursIn_cons_iff {nd : List Char} {h : Char} {t : List Char} :
    occursIn nd (h :: t) ↔ (∃ post, h :: t = nd ++ post) ∨ occursIn nd t := by
  constructor
  · rintro ⟨pre, post, he⟩
    cases pre with
    | nil => exact Or.inl ⟨post, he⟩
    | cons p ps =>
      injection he with h1 h2
      exact Or.inr ⟨ps, post, h2⟩
  · rintro (⟨post, he⟩ | ⟨pre, post, he⟩)
    · exact ⟨[], post, he⟩
    · exact ⟨h :: pre, post, by simp [he]⟩

/-- Correctness of the `instr` search loop for a non-empty needle: it finds
a positive position exactly when the needle occurs in the haystack. -/
theorem instrAux_pos_iff {nd : List Char} (hnd : nd ≠ []) :
    ∀ (hay : List Char) (n : Nat), 0 < n →
      (0 < instrAux hay nd n ↔ occursIn nd hay) := by
  intro hay
  induction hay with
  | nil =>
    intro n hn
    have hlen : ¬ nd.length = 0 := fun h => hnd (List.length_eq_zero.mp h)
    rw [instrAux, if_neg hlen]
    simp [occursIn_nil_iff, hnd]
  | cons h t ih =>
    intro n hn
    by_cases hle : nd.length ≤ t.length + 1
    · by_cases hm : matchesAt nd (h :: t) = true
      · rw [instrAux, if_pos hle, if_pos hm]
        obtain ⟨post, he⟩ := (matchesAt_iff nd (h :: t)).mp hm
        simp only [hn, true_iff]
        exact ⟨[], post, he⟩
      · rw [instrAux, if_pos hle, if_neg hm]
        rw [ih (n + 1) (Nat.succ_pos n), occursIn_cons_iff]
        constructor
        · exact Or.inr
        · rintro (⟨post, he⟩ | ho)
          · exact absurd ((matchesAt_iff nd (h :: t)).mpr ⟨post, he⟩) hm
          · exact ho
    · rw [instrAux, if_neg hle]
      constructor
      · intro hcon
        exact absurd rfl (Nat.ne_of_gt hcon)
      · intro hocc
        have := occursIn_length_le hocc
        simp at this
        omega

/-- SQLite's `instr` is positive exactly when the needle occurs in the
haystack as a contiguous substring — including the empty needle, for which
`instr` returns 1. -/
theorem sqliteInstr_pos_iff (hay nd : List Char) :
    0 < sqliteInstr hay nd ↔ occursIn nd hay := by
  by_cases h : nd.isEmpty = true
  · have hnil : nd = [] := List.isEmpty_iff.mp h
    subst hnil
    rw [sqliteInstr, if_pos h]
    simp only [Nat.zero_lt_one, true_iff]
    exact ⟨[], hay, rfl⟩
  · have hnd : nd ≠ [] := fun hh => h (by simp [hh])
    rw [sqliteInstr, if_neg h]
    exact instrAux_pos_iff hnd hay 1 Nat.one_pos

/-- C7: `SearchAllRepoContents` with the empty query is accepted and returns
exactly the path of every stored `repo_contents` row (each at least once,
including rows with empty content): the length-zero substring matches every
record since `instr(lower(content), lower('')) = 1 > 0`. -/
theorem searchAll_empty_query :
    ∀ s : Store, searchAll s "" = s.contents.map ContentRow.path := by
  intro s
  unfold searchAll
  congr 1
  exact List.filter_eq_self.mpr (fun r _ => rfl)

/-- C8: search is ASCII-case-insensitive substring matching — a path is in
the result of `SearchAllRepoContents` exactly when some stored row carries
that path and lowercasing both its content and the query yields a substring
occurrence; in particular a file whose content contains "Hello" is returned
for the query "hello". -/
theorem searchAll_case_insensitive :
    (∀ (s : Store) (q p : String),
      p ∈ searchAll s q ↔
        ∃ r, r ∈ s.contents ∧ r.path = p ∧ occursIn (lowerStr q) (lowerStr r.content)) ∧
    "greet.txt" ∈ searchAll ⟨[⟨1, "u", "h"⟩], [⟨some 1, "greet.txt", "say Hello!"⟩]⟩ "hello" := by
  constructor
  · intro s q p
    unfold searchAll
    rw [List.mem_map]
    constructor
    · rintro ⟨r, hr, rfl⟩
      rw [List.mem_filter] at hr
      refine ⟨r, hr.1, rfl, (sqliteInstr_pos_iff _ _).mp ?_⟩
      simpa using hr.2
    · rintro ⟨r, hmem, rfl, hocc⟩
      refine ⟨r, List.mem_filter.mpr ⟨hmem, ?_⟩, rfl⟩
      simpa using (sqliteInstr_pos_iff _ _).mpr hocc
  · decide

end Haystack

namespace Haystack

/-- The conflict-ignoring `repos` insert never touches `repo_contents`. -/
theorem insertRepo_contents (s : Store) (u h : String) :
    (insertRepo s u h).contents = s.contents := by
  unfold insertRepo
  split <;> rfl

/-- The file loop never touches the `repos` table. -/
theorem addFilesLoop_repos (url : String) (f : DbFaults) (c : Option Nat) :
    ∀ (evs : List FileEvent) (s : Store) (i : Nat),
      (addFilesLoop url f c s evs i).2.repos = s.repos := by
  intro evs
  induction evs with
  | nil =>
    intro s i
    by_cases h : cancelled c i = true <;> simp [addFilesLoop, h]
  | cons ev rest ih =>
    intro s i
    by_cases h : cancelled c i = true
    · simp [addFilesLoop, h]
    · cases ev with
      | iterFail e => simp [addFilesLoop, h]
      | file p r =>
        cases r with
        | error e => simp [addFilesLoop, h]
        | ok content =>
          cases hc : f.contentErr p with
          | some e => simp [addFilesLoop, h, hc]
          | none =>
            rw [addFilesLoop, if_neg h]
            simp only [hc]
            exact ih (insertContent s url p content) (i + 1)

/-- The file loop only appends to `repo_contents`. -/
theorem addFilesLoop_contents (url : String) (f : DbFaults) (c : Option Nat) :
    ∀ (evs : List FileEvent) (s : Store) (i : Nat),
      ∃ t, (addFilesLoop url f c s evs i).2.contents = s.contents ++ t := by
  intro evs
  induction evs with
  | nil =>
    intro s i
    refine ⟨[], ?_⟩
    by_cases h : cancelled c i = true <;> simp [addFilesLoop, h]
  | cons ev rest ih =>
    intro s i
    by_cases h : cancelled c i = true
    · exact ⟨[], by simp [addFilesLoop, h]⟩
    · cases ev with
      | iterFail e => exact ⟨[], by simp [addFilesLoop, h]⟩
      | file p r =>
        cases r with
        | error e => exact ⟨[], by simp [addFilesLoop, h]⟩
        | ok content =>
          cases hc : f.contentErr p with
          | some e => exact ⟨[], by simp [addFilesLoop, h, hc]⟩
          | none =>
            obtain ⟨t, ht⟩ := ih (insertContent s url p content) (i + 1)
            refine ⟨⟨urlId s url, p, content⟩ :: t, ?_⟩
            rw [addFilesLoop, if_neg h]
            simp only [hc]
            rw [ht]
            simp [insertContent]

/-- Any `AddRepo` call leaves the prior `repo_contents` rows in place as a
prefix of the new table: no row is ever deleted or updated. -/
theorem addRepo_contents_shape (s : Store) (url : String) (g : GitOutcome)
    (f : DbFaults) (c : Option Nat) :
    ∃ t, (addRepo s url g f c).2.contents = s.contents ++ t := by
  cases g with
  | cloneFail e => exact ⟨[], by simp [addRepo]⟩
  | logFail e => exact ⟨[], by simp [addRepo]⟩
  | ok head ls =>
    rw [addRepo]
    split
    · exact ⟨[], by simp⟩
    · cases ls with
      | error e =>
        refine ⟨[], ?_⟩
        cases f.insErr with
        | some e2 => simp
        | none => simp [insertRepo_contents]
      | ok evs =>
        cases hins : f.insErr with
        | some e2 =>
          simpa using addFilesLoop_contents url f c evs s 0
        | none =>
          obtain ⟨t, ht⟩ := addFilesLoop_contents url f c evs (insertRepo s url head) 0
          exact ⟨t, by rw [ht, insertRepo_contents]⟩

/-- Extending `repo_contents` on the right preserves every search result. -/
theorem searchAll_mono {s s' : Store} {t : List ContentRow}
    (h : s'.contents = s.contents ++ t) (q p : String) (hp : p ∈ searchAll s q) :
    p ∈ searchAll s' q := by
  unfold searchAll at hp ⊢
  rw [h, List.filter_append, List.map_append]
  exact List.mem_append_left _ hp

/-- C10: `AddRepo` never deletes or updates existing `repo_contents` rows —
whatever the outcome (success, clone failure, mid-loop error, cancellation),
the previous rows survive verbatim as a prefix of the table, and every path
reachable through `SearchAllRepoContents` before the call is still returned
afterwards. -/
theorem addRepo_append_only :
    ∀ (s : Store) (url : String) (g : GitOutcome) (f : DbFaults) (c : Option Nat),
      (∃ t, (addRepo s url g f c).2.contents = s.contents ++ t) ∧
      (∀ q p, p ∈ searchAll s q → p ∈ searchAll (addRepo s url g f c).2 q) := by
  intro s url g f c
  obtain ⟨t, ht⟩ := addRepo_contents_shape s url g f c
  exact ⟨⟨t, ht⟩, fun q p hp => searchAll_mono ht q p hp⟩

/-- Witness for C10 at a concrete input: a store holding `a.txt` = "foo"
still returns `a.txt` for the query "foo" after a further (here: failing)
`AddRepo` call. -/
theorem addRepo_append_only_witness :
    "a.txt" ∈ searchAll (addRepo ⟨[⟨1, "u", "h"⟩], [⟨some 1, "a.txt", "foo"⟩]⟩ "u2"
      (GitOutcome.cloneFail "boom") noFaults none).2 "foo" :=
  (addRepo_append_only ⟨[⟨1, "u", "h"⟩], [⟨some 1, "a.txt", "foo"⟩]⟩ "u2"
      (GitOutcome.cloneFail "boom") noFaults none).2 "foo" "a.txt" (by decide)

end Haystack

namespace Haystack

/-- When no row for `u` exists, the conflict-ignoring insert appends one. -/
theorem insertRepo_repos_none {s : Store} {u : String} (hf : findRepo s u = none)
    (h : String) : (insertRepo s u h).repos = s.repos ++ [⟨nextId s, u, h⟩] := by
  rw [insertRepo, hf]

/-- When a row for `u` exists, the conflict-ignoring insert is a no-op. -/
theorem insertRepo_eq_of_find_some {s : Store} {u : String} {r : RepoRow}
    (hf : findRepo s u = some r) (h : String) : insertRepo s u h = s := by
  rw [insertRepo, hf]

/-- Scanning past rows that do not match continues in the appended rows. -/
theorem findRepoL_append_none {l : List RepoRow} {u : String}
    (h : findRepoL l u = none) (l2 : List RepoRow) :
    findRepoL (l ++ l2) u = findRepoL l2 u := by
  unfold findRepoL at *
  rw [List.find?_append, h, Option.none_or]

/-- A url matches no row iff it is counted zero times. -/
theorem reposFor_eq_zero_of_find_none {l : List RepoRow} {u : String}
    (h : findRepoL l u = none) : reposFor l u = 0 := by
  rw [reposFor, List.countP_eq_zero]
  intro r hr
  exact List.find?_eq_none.mp h r hr

/-- A matched url is counted at least once. -/
theorem reposFor_pos_of_find_some {l : List RepoRow} {u : String} {r : RepoRow}
    (h : findRepoL l u = some r) : 0 < reposFor l u := by
  rw [reposFor]
  have h' : List.find? (fun r => r.url == u) l = some r := h
  have hp := List.find?_some h'
  exact List.countP_pos_iff.mpr ⟨r, List.mem_of_find?_eq_some h', by simpa using hp⟩

/-- Early-return lemma: when the change-detection SELECT succeeds and yields
exactly the freshly observed head, `AddRepo` is a no-op returning success
(pile.go:166-168). -/
theorem addRepo_noop_of_same_hash (s : Store) (u head : String)
    (ls : Except String (List FileEvent)) (f : DbFaults) (c : Option Nat)
    (hsel : f.selErr = none) (hh : storedHash s u = head) :
    addRepo s u (GitOutcome.ok head ls) f c = (Except.ok (), s) := by
  rw [addRepo]
  simp only [hsel]
  rw [if_pos hh]

/-- Write-path lemma: a fault-free, uncancelled call whose stored hash
differs from the observed head inserts the repo row and runs the file
loop. -/
theorem addRepo_write_eq (s : Store) (u head : String) (F : List FileEvent)
    (hne : storedHash s u ≠ head) :
    addRepo s u (GitOutcome.ok head (Except.ok F)) noFaults none
      = addFilesLoop u noFaults none (insertRepo s u head) F 0 := by
  rw [addRepo]
  simp only [noFaults]
  rw [if_neg hne]

/-- With no statement faults, no cancellation, and a cleanly enumerated and
readable working tree, the file loop succeeds. -/
theorem addFilesLoop_ok (url : String) (f : DbFaults)
    (hf : ∀ p, f.contentErr p = none) :
    ∀ evs : List FileEvent, cleanEvents evs = true →
      ∀ (s : Store) (i : Nat), (addFilesLoop url f none s evs i).1 = Except.ok () := by
  intro evs
  induction evs with
  | nil =>
    intro _ s i
    rfl
  | cons ev rest ih =>
    intro hcl s i
    cases ev with
    | iterFail e => exact absurd hcl (by simp [cleanEvents])
    | file p r =>
      cases r with
      | error e => exact absurd hcl (by simp [cleanEvents])
      | ok content =>
        rw [addFilesLoop, if_neg (by simp [cancelled])]
        simp only [hf p]
        exact ih (by simpa [cleanEvents] using hcl) (insertContent s url p content) (i + 1)

/-- C2 (amended): on the write path (stored hash differs from the observed
head), a fault-free `AddRepo` leaves `last_indexed_commit_hash` equal to the
fresh head ONLY when the row is newly created by this call; when the row
already existed, the hash keeps its previous value — `ON CONFLICT (url) DO
NOTHING` records nothing on the pre-existing row.  With a clean file
enumeration the call still returns success. -/
theorem addRepo_hash_after_write :
    ∀ (s : Store) (u head : String) (F : List FileEvent),
    storedHash s u ≠ head →
    ((findRepo s u = none →
        storedHash (addRepo s u (GitOutcome.ok head (Except.ok F)) noFaults none).2 u = head) ∧
     (∀ r, findRepo s u = some r →
        storedHash (addRepo s u (GitOutcome.ok head (Except.ok F)) noFaults none).2 u = r.hash) ∧
     (cleanEvents F = true →
        (addRepo s u (GitOutcome.ok head (Except.ok F)) noFaults none).1 = Except.ok ())) := by
  intro s u head F hne
  have hrepos : (addRepo s u (GitOutcome.ok head (Except.ok F)) noFaults none).2.repos
      = (insertRepo s u head).repos := by
    rw [addRepo_write_eq s u head F hne]
    exact addFilesLoop_repos u noFaults none F (insertRepo s u head) 0
  refine ⟨?_, ?_, ?_⟩
  · intro hf
    rw [storedHash, findRepo, hrepos, insertRepo_repos_none hf head,
      findRepoL_append_none hf]
    simp [findRepoL]
  · intro r hf
    rw [storedHash, findRepo, hrepos, insertRepo_eq_of_find_some hf head, ← findRepo, hf]
  · intro hcl
    rw [addRepo_write_eq s u head F hne]
    exact addFilesLoop_ok u noFaults (fun _ => rfl) F hcl (insertRepo s u head) 0

/-- Witness for C2's amended theorem: indexing a fresh url `u` at head `h`
records `h` as the stored hash. -/
theorem addRepo_hash_after_write_witness :
    storedHash (addRepo emptyStore "u" (GitOutcome.ok "h" (Except.ok [])) noFaults none).2 "u"
      = "h" :=
  (addRepo_hash_after_write emptyStore "u" "h" [] (by decide)).1 rfl

/-- C3 (amended): errors of the per-file `repo_contents` INSERT (and
likewise of the file reads and the iterator) are propagated to the caller,
but errors of the change-detection SELECT (pile.go:156) and of the `repos`
INSERT (pile.go:171) are silently discarded — the call continues as if the
SELECT had found no row and the insert had been a no-op, and can return
success. -/
theorem addRepo_error_propagation :
    (∀ (s : Store) (u head p c e : String) (rest : List FileEvent) (f : DbFaults),
      f.selErr = none → f.contentErr p = some e → storedHash s u ≠ head →
      (addRepo s u (GitOutcome.ok head
          (Except.ok (FileEvent.file p (Except.ok c) :: rest))) f none).1
        = Except.error e) ∧
    (∀ (s : Store) (u head e1 e2 : String) (evs : List FileEvent),
      cleanEvents evs = true →
      (addRepo s u (GitOutcome.ok head (Except.ok evs))
          ⟨some e1, some e2, fun _ => none⟩ none).1 = Except.ok ()) := by
  constructor
  · intro s u head p c e rest f hsel hcon hne
    rw [addRepo]
    simp only [hsel]
    rw [if_neg hne]
    cases hins : f.insErr with
    | some e2 =>
      simp only [hins]
      rw [addFilesLoop, if_neg (by simp [cancelled])]
      simp only [hcon]
    | none =>
      simp only [hins]
      rw [addFilesLoop, if_neg (by simp [cancelled])]
      simp only [hcon]
  · intro s u head e1 e2 evs hcl
    rw [addRepo]
    simp only []
    by_cases hh : ("" : String) = head
    · rw [if_pos hh]
    · rw [if_neg hh]
      exact addFilesLoop_ok u _ (fun _ => rfl) evs hcl s 0

/-- Witness for C3's amended theorem: a per-file insert error surfaces as
the call's error, while injected SELECT/INSERT statement errors are
swallowed and the call reports success. -/
theorem addRepo_error_propagation_witness :
    (addRepo emptyStore "u" (GitOutcome.ok "h" (Except.ok
        [FileEvent.file "a" (Except.ok "x")]))
      ⟨none, none, fun p => if p == "a" then some "boom" else none⟩ none).1
      = Except.error "boom" ∧
    (addRepo emptyStore "u" (GitOutcome.ok "h" (Except.ok
        [FileEvent.file "a" (Except.ok "x")]))
      ⟨some "e1", some "e2", fun _ => none⟩ none).1 = Except.ok () :=
  ⟨addRepo_error_propagation.1 emptyStore "u" "h" "a" "x" "boom" []
      ⟨none, none, fun p => if p == "a" then some "boom" else none⟩ rfl (by decide) (by decide),
   addRepo_error_propagation.2 emptyStore "u" "h" "e1" "e2"
      [FileEvent.file "a" (Except.ok "x")] (by decide)⟩

end Haystack

namespace Haystack

/-- C4 (amended): calling `AddRepo` twice in succession with both calls
observing the same non-empty head commit hash — provided any pre-existing
`repos` row for the URL already carries that head hash (in particular when
the URL was never indexed before) and the URL currently has at most one row
— leaves exactly one `repos` row for the URL, and the second call is a
no-op that returns success and changes nothing.  (Without the proviso the
property fails: a pre-existing row with a stale hash makes every subsequent
same-head call re-insert the file set, see the counterexample.) -/
theorem addRepo_twice_same_head_noop :
    ∀ (s : Store) (u head : String) (F : List FileEvent)
      (ls2 : Except String (List FileEvent)),
    head ≠ "" →
    (∀ r, findRepo s u = some r → r.hash = head) →
    cleanEvents F = true →
    reposFor s.repos u ≤ 1 →
    (addRepo s u (GitOutcome.ok head (Except.ok F)) noFaults none).1 = Except.ok () ∧
    addRepo (addRepo s u (GitOutcome.ok head (Except.ok F)) noFaults none).2 u
        (GitOutcome.ok head ls2) noFaults none
      = (Except.ok (), (addRepo s u (GitOutcome.ok head (Except.ok F)) noFaults none).2) ∧
    reposFor (addRepo s u (GitOutcome.ok head (Except.ok F)) noFaults none).2.repos u = 1 := by
  intro s u head F ls2 hhead hsome hcl hle
  cases hf : findRepo s u with
  | some r =>
    have hh : storedHash s u = head := by
      rw [storedHash, hf]
      exact hsome r hf
    have hnoop := addRepo_noop_of_same_hash s u head (Except.ok F) noFaults none rfl hh
    rw [hnoop]
    refine ⟨rfl, ?_, ?_⟩
    · exact addRepo_noop_of_same_hash s u head ls2 noFaults none rfl hh
    · show reposFor s.repos u = 1
      have hf' : findRepoL s.repos u = some r := hf
      have hp := reposFor_pos_of_find_some hf'
      omega
  | none =>
    have hne : storedHash s u ≠ head := by
      rw [storedHash, hf]
      exact fun hc => hhead hc.symm
    have hW := addRepo_write_eq s u head F hne
    have hrepos : (addRepo s u (GitOutcome.ok head (Except.ok F)) noFaults none).2.repos
        = s.repos ++ [⟨nextId s, u, head⟩] := by
      rw [hW, addFilesLoop_repos, insertRepo_repos_none hf head]
    have hsh2 : storedHash
        (addRepo s u (GitOutcome.ok head (Except.ok F)) noFaults none).2 u = head := by
      rw [storedHash, findRepo, hrepos, findRepoL_append_none hf]
      simp [findRepoL]
    refine ⟨?_, ?_, ?_⟩
    · rw [hW]
      exact addFilesLoop_ok u noFaults (fun _ => rfl) F hcl (insertRepo s u head) 0
    · exact addRepo_noop_of_same_hash _ u head ls2 noFaults none rfl hsh2
    · rw [hrepos, reposFor, List.countP_append]
      have h0 : reposFor s.repos u = 0 := reposFor_eq_zero_of_find_none hf
      rw [reposFor] at h0
      rw [h0]
      simp

/-- Witness for C4's amended theorem: first-ever indexing of a url followed
by a same-head call leaves exactly one `repos` row. -/
theorem addRepo_twice_same_head_noop_witness :
    reposFor (addRepo emptyStore "u" (GitOutcome.ok "h" (Except.ok []))
      noFaults none).2.repos "u" = 1 :=
  (addRepo_twice_same_head_noop emptyStore "u" "h" [] (Except.ok []) (by decide)
    (fun _ h => nomatch h) (by decide) (by decide)).2.2

/-- The conflict-ignoring insert preserves "at most one row per url". -/
theorem reposFor_insertRepo_le {s : Store} {u : String} (u2 h : String)
    (hle : reposFor s.repos u ≤ 1) : reposFor (insertRepo s u2 h).repos u ≤ 1 := by
  cases hf : findRepo s u2 with
  | some r =>
    rw [insertRepo_eq_of_find_some hf]
    exact hle
  | none =>
    rw [insertRepo_repos_none hf, reposFor, List.countP_append]
    by_cases hu : u2 = u
    · subst hu
      have h0 : reposFor s.repos u2 = 0 := reposFor_eq_zero_of_find_none hf
      rw [reposFor] at h0
      rw [h0]
      simp
    · have hz : List.countP (fun r : RepoRow => r.url == u)
          ([⟨nextId s, u2, h⟩] : List RepoRow) = 0 := by
        simp [hu]
      rw [hz]
      rw [reposFor] at hle
      omega

/-- The conflict-ignoring insert never removes rows. -/
theorem reposFor_insertRepo_ge {s : Store} {u : String} (u2 h : String) :
    reposFor s.repos u ≤ reposFor (insertRepo s u2 h).repos u := by
  cases hf : findRepo s u2 with
  | some r =>
    rw [insertRepo_eq_of_find_some hf]
  | none =>
    rw [insertRepo_repos_none hf, reposFor, reposFor, List.countP_append]
    omega

/-- After the conflict-ignoring insert, at least one row for the url
exists. -/
theorem reposFor_insertRepo_self_pos (s : Store) (u h : String) :
    0 < reposFor (insertRepo s u h).repos u := by
  cases hf : findRepo s u with
  | some r =>
    rw [insertRepo_eq_of_find_some hf]
    have hf' : findRepoL s.repos u = some r := hf
    exact reposFor_pos_of_find_some hf'
  | none =>
    rw [insertRepo_repos_none hf, reposFor, List.countP_append]
    have h1 : List.countP (fun r : RepoRow => r.url == u) [⟨nextId s, u, h⟩] = 1 := by
      simp
    omega

/-- Any `AddRepo` call either leaves the `repos` table unchanged or changes
it exactly as one conflict-ignoring insert for its url does. -/
theorem addRepo_repos_shape (s : Store) (url : String) (g : GitOutcome)
    (f : DbFaults) (c : Option Nat) :
    (addRepo s url g f c).2.repos = s.repos ∨
    ∃ h, (addRepo s url g f c).2.repos = (insertRepo s url h).repos := by
  cases g with
  | cloneFail e => exact Or.inl rfl
  | logFail e => exact Or.inl rfl
  | ok head ls =>
    rw [addRepo]
    split
    · exact Or.inl rfl
    · cases hins : f.insErr with
      | some e2 =>
        cases ls with
        | error e => exact Or.inl (by simp [hins])
        | ok evs =>
          refine Or.inl ?_
          simp only [hins]
          exact addFilesLoop_repos url f c evs s 0
      | none =>
        cases ls with
        | error e =>
          refine Or.inr ⟨head, ?_⟩
          simp [hins]
        | ok evs =>
          refine Or.inr ⟨head, ?_⟩
          simp only [hins]
          exact addFilesLoop_repos url f c evs (insertRepo s url head) 0

/-- Any `AddRepo` call preserves "at most one row per url". -/
theorem addRepo_reposFor_le {s : Store} {u : String} (url : String) (g : GitOutcome)
    (f : DbFaults) (c : Option Nat) (hle : reposFor s.repos u ≤ 1) :
    reposFor (addRepo s url g f c).2.repos u ≤ 1 := by
  rcases addRepo_repos_shape s url g f c with h | ⟨hh, h⟩
  · rw [h]
    exact hle
  · rw [h]
    exact reposFor_insertRepo_le url hh hle

/-- No `AddRepo` call ever removes a `repos` row. -/
theorem addRepo_reposFor_ge {s : Store} {u : String} (url : String) (g : GitOutcome)
    (f : DbFaults) (c : Option Nat) :
    reposFor s.repos u ≤ reposFor (addRepo s url g f c).2.repos u := by
  rcases addRepo_repos_shape s url g f c with h | ⟨hh, h⟩
  · rw [h]
  · rw [h]
    exact reposFor_insertRepo_ge url hh

/-- A whole call sequence preserves "at most one row per url". -/
theorem runCalls_reposFor_le {u : String} :
    ∀ (calls : List CallSpec) (s : Store), reposFor s.repos u ≤ 1 →
      reposFor (runCalls s calls).repos u ≤ 1 := by
  intro calls
  induction calls with
  | nil =>
    intro s h
    exact h
  | cons cspec rest ih =>
    intro s h
    rw [runCalls]
    exact ih _ (addRepo_reposFor_le cspec.url cspec.g cspec.f cspec.cancelAt h)

/-- A whole call sequence never removes a `repos` row. -/
theorem runCalls_reposFor_ge {u : String} :
    ∀ (calls : List CallSpec) (s : Store),
      reposFor s.repos u ≤ reposFor (runCalls s calls).repos u := by
  intro calls
  induction calls with
  | nil =>
    intro s
    exact Nat.le_refl _
  | cons cspec rest ih =>
    intro s
    rw [runCalls]
    exact Nat.le_trans (addRepo_reposFor_ge cspec.url cspec.g cspec.f cspec.cancelAt) (ih _)

/-- A fault-free, uncancelled, clean-tree `AddRepo` with a non-empty head
succeeds and leaves at least one `repos` row for its url. -/
theorem addRepo_ok_and_pos (s : Store) (u head : String) (F : List FileEvent)
    (hhead : head ≠ "") (hcl : cleanEvents F = true) :
    (addRepo s u (GitOutcome.ok head (Except.ok F)) noFaults none).1 = Except.ok () ∧
    0 < reposFor (addRepo s u (GitOutcome.ok head (Except.ok F)) noFaults none).2.repos u := by
  by_cases hh : storedHash s u = head
  · rw [addRepo_noop_of_same_hash s u head (Except.ok F) noFaults none rfl hh]
    refine ⟨rfl, ?_⟩
    cases hf : findRepo s u with
    | none =>
      exfalso
      apply hhead
      rw [storedHash, hf] at hh
      exact hh.symm
    | some r =>
      have hf' : findRepoL s.repos u = some r := hf
      exact reposFor_pos_of_find_some hf'
  · have hW := addRepo_write_eq s u head F hh
    constructor
    · rw [hW]
      exact addFilesLoop_ok u noFaults (fun _ => rfl) F hcl (insertRepo s u head) 0
    · rw [hW, addFilesLoop_repos]
      exact reposFor_insertRepo_self_pos s u head

/-- Counting a url among the listed urls is counting its `repos` rows. -/
theorem count_map_url : ∀ (l : List RepoRow) (u : String),
    (l.map RepoRow.url).count u = reposFor l u := by
  intro l u
  induction l with
  | nil => rfl
  | cons r t ih =>
    have ih2 : (t.map RepoRow.url).count u = List.countP (fun r => r.url == u) t := ih
    simp [reposFor, List.map_cons, List.count_cons, List.countP_cons, ih2]

/-- C6: once one fault-free `AddRepo` for url `u` (observing a non-empty
head over a cleanly enumerated tree) has succeeded, `ListRepos` contains `u`
exactly once — no matter which other `AddRepo` calls (for `u` or any other
url, successful or not) come before or after, provided the store started
with at most one row for `u` (as any store built by the code from empty
does, the url column being UNIQUE). -/
theorem listRepos_contains_url_once :
    ∀ (s : Store) (pre post : List CallSpec) (u head : String) (F : List FileEvent),
    reposFor s.repos u ≤ 1 → head ≠ "" → cleanEvents F = true →
    (addRepo (runCalls s pre) u (GitOutcome.ok head (Except.ok F)) noFaults none).1
      = Except.ok () ∧
    (listRepos (runCalls
        (addRepo (runCalls s pre) u (GitOutcome.ok head (Except.ok F)) noFaults none).2
        post)).count u = 1 := by
  intro s pre post u head F hle hhead hcl
  have hle1 : reposFor (runCalls s pre).repos u ≤ 1 := runCalls_reposFor_le pre s hle
  obtain ⟨hok, hpos⟩ := addRepo_ok_and_pos (runCalls s pre) u head F hhead hcl
  have hle2 : reposFor (addRepo (runCalls s pre) u (GitOutcome.ok head (Except.ok F))
      noFaults none).2.repos u ≤ 1 :=
    addRepo_reposFor_le u (GitOutcome.ok head (Except.ok F)) noFaults none hle1
  have hge3 : reposFor (addRepo (runCalls s pre) u (GitOutcome.ok head (Except.ok F))
        noFaults none).2.repos u
      ≤ reposFor (runCalls (addRepo (runCalls s pre) u (GitOutcome.ok head (Except.ok F))
        noFaults none).2 post).repos u :=
    runCalls_reposFor_ge post
      (addRepo (runCalls s pre) u (GitOutcome.ok head (Except.ok F)) noFaults none).2
  have hle3 : reposFor (runCalls (addRepo (runCalls s pre) u (GitOutcome.ok head (Except.ok F))
        noFaults none).2 post).repos u ≤ 1 :=
    runCalls_reposFor_le post
      (addRepo (runCalls s pre) u (GitOutcome.ok head (Except.ok F)) noFaults none).2 hle2
  refine ⟨hok, ?_⟩
  rw [listRepos, count_map_url]
  omega

/-- Witness for C6 at a concrete input: after indexing url `u` into an empty
store, `ListRepos` contains `u` exactly once. -/
theorem listRepos_contains_url_once_witness :
    (listRepos (runCalls (addRepo (runCalls emptyStore []) "u"
      (GitOutcome.ok "h" (Except.ok [])) noFaults none).2 [])).count "u" = 1 :=
  (listRepos_contains_url_once emptyStore [] [] "u" "h" [] (by decide) (by decide)
    (by decide)).2

end Haystack
